import Mathlib

/-!
Verification of the room-matcher core (`src/main.rs`).

The matcher `solve_constraints` and the selector in `main` are embedded as
pure Lean functions.  The Rust `HashMap<String, (Vec<String>, Vec<String>)>`
is modelled as an association list, a `.unwrap()` panic on a missing key as
`Except.error SolveError.missingConstraint`, and the fatal "Not enough people
to fill rooms" panic as `Except.error SolveError.insufficientPopulation`.
The random generator is modelled by an oracle `Nat → Nat`: the k-th call of
`choose` on a list `l` returns the element at index `oracle k % l.length`,
which ranges over exactly the elements `choose` can return.  The initial
`shuffle` is modelled by quantifying theorems over every permutation of the
population (the function below receives the already-shuffled working list).
The working list is consumed from its last element, exactly like `Vec::pop`.
-/

abbrev Person := String

/-- The constraint mapping: each person's (preferred, unpreferred) name lists. -/
abbrev Constraints := List (Person × (List Person × List Person))

def lookupC (c : Constraints) (p : Person) : Option (List Person × List Person) :=
  c.lookup p

inductive SolveError
  | missingConstraint
  | insufficientPopulation
deriving DecidableEq

inductive SelectError
  | emptyInput
deriving DecidableEq

/-- Which counter a pair was counted toward (instrumentation of the three
`num_preferred += 1` / `num_accepted += 1` / `num_unpreferred += 1` branches). -/
inductive Tier
  | preferred
  | accepted
  | unpreferred
deriving DecidableEq

structure Solution where
  result : List (Person × Person)
  preferred : Nat
  accepted : Nat
  unpreferred : Nat
deriving DecidableEq

/-- A `Solution` whose pairs additionally remember which branch produced them. -/
structure TSolution where
  result : List (Tier × Person × Person)
  preferred : Nat
  accepted : Nat
  unpreferred : Nat
deriving DecidableEq

def stripTags (s : TSolution) : Solution :=
  ⟨s.result.map (fun x => x.2), s.preferred, s.accepted, s.unpreferred⟩

/-- `slice.choose(rng)` on a non-empty list: some element, selected by the
random index `r % l.length`. -/
def pickFrom (l : List Person) (r : Nat) : Person :=
  l.getD (r % l.length) ""

/-- The `options` computation (main.rs lines 110-116): walk `current`'s
preferred list, keep the names still in the working set whose own preferred
list contains `current`.  The lookup of a candidate's entry happens only for
candidates that passed the `remaining_people.contains` filter, and its
`.unwrap()` is the `missingConstraint` error. -/
def mutualPreferred (c : Constraints) (person : Person) (remaining : List Person) :
    List Person → Except SolveError (List Person)
  | [] => .ok []
  | x :: xs =>
    if remaining.contains x then
      match lookupC c x with
      | none => .error .missingConstraint
      | some entry =>
        match mutualPreferred c person remaining xs with
        | .error e => .error e
        | .ok rest => .ok (if entry.1.contains person then x :: rest else rest)
    else mutualPreferred c person remaining xs

/-- The `secondary_options` computation (main.rs lines 118-124): walk the
working set, keep the names not in `current`'s unpreferred list whose own
unpreferred list does not contain `current`.  The candidate's entry is looked
up only after the first filter passes. -/
def mutualAcceptable (c : Constraints) (person : Person) (unpref : List Person) :
    List Person → Except SolveError (List Person)
  | [] => .ok []
  | x :: xs =>
    if unpref.contains x then mutualAcceptable c person unpref xs
    else
      match lookupC c x with
      | none => .error .missingConstraint
      | some entry =>
        match mutualAcceptable c person unpref xs with
        | .error e => .error e
        | .ok rest => .ok (if entry.2.contains person then rest else x :: rest)

theorem eraseIdx_length_le {α : Type} (l : List α) (i : Nat) :
    (l.eraseIdx i).length ≤ l.length := by
  induction l generalizing i with
  | nil => simp [List.eraseIdx]
  | cons a t ih =>
    cases i with
    | zero => simp [List.eraseIdx]
    | succ m =>
      simpa [List.eraseIdx] using Nat.succ_le_succ (ih m)

/-- The matching loop of `solve_constraints` (main.rs lines 107-152), with the
tier of each pushed pair recorded.  Each iteration pops the last element of
`remaining`, computes both candidate lists (both are built eagerly in the
source, before the branch), then pairs through the preferred, accepted or
forced tier, or fails if the working set ran dry. -/
def solveLoop (c : Constraints) (oracle : Nat → Nat) (remaining : List Person)
    (k : Nat) (result : List (Tier × Person × Person)) (np na nu : Nat) :
    Except SolveError TSolution :=
  if hrem : remaining = [] then .ok ⟨result, np, na, nu⟩
  else
    let person := remaining.getLast hrem
    let remaining1 := remaining.dropLast
    match lookupC c person with
    | none => .error .missingConstraint
    | some entry =>
      match mutualPreferred c person remaining1 entry.1 with
      | .error e => .error e
      | .ok options =>
        match mutualAcceptable c person entry.2 remaining1 with
        | .error e => .error e
        | .ok secondary =>
          if options ≠ [] then
            let choice := pickFrom options (oracle k)
            let idx := remaining1.findIdx (fun x => x == choice)
            solveLoop c oracle (remaining1.eraseIdx idx) (k + 1)
              (result ++ [(Tier.preferred, person, choice)]) (np + 1) na nu
          else if secondary ≠ [] then
            let choice := pickFrom secondary (oracle k)
            let idx := remaining1.findIdx (fun x => x == choice)
            solveLoop c oracle (remaining1.eraseIdx idx) (k + 1)
              (result ++ [(Tier.accepted, person, choice)]) np (na + 1) nu
          else if remaining1 = [] then .error .insufficientPopulation
          else
            let choice := pickFrom remaining1 (oracle k)
            let idx := remaining1.findIdx (fun x => x == choice)
            solveLoop c oracle (remaining1.eraseIdx idx) (k + 1)
              (result ++ [(Tier.unpreferred, person, choice)]) np na (nu + 1)
termination_by remaining.length
decreasing_by
  all_goals
    exact Nat.lt_of_le_of_lt (eraseIdx_length_le _ _)
      (by
        rw [List.length_dropLast]
        exact Nat.sub_lt (List.length_pos.mpr hrem) Nat.one_pos)

/-- `solve_constraints` with tier instrumentation, on the already-shuffled
working list. -/
def solve_tagged (population : List Person) (c : Constraints) (oracle : Nat → Nat) :
    Except SolveError TSolution :=
  solveLoop c oracle population 0 [] 0 0 0

/-- The embedding of `solve_constraints` (main.rs lines 93-160): the returned
`Solution`, or the error corresponding to the panic the source would hit. -/
def solve_constraints (population : List Person) (c : Constraints) (oracle : Nat → Nat) :
    Except SolveError Solution :=
  (solve_tagged population c oracle).map stripTags

/-- Fuel-indexed mirror of `solveLoop`: structurally recursive on `fuel`,
returning `none` when the fuel runs out before the working set is empty. -/
def solveLoopFuel (c : Constraints) (oracle : Nat → Nat) :
    Nat → List Person → Nat → List (Tier × Person × Person) → Nat → Nat → Nat →
      Option (Except SolveError TSolution)
  | fuel, remaining, k, result, np, na, nu =>
    if hrem : remaining = [] then some (.ok ⟨result, np, na, nu⟩)
    else
      match fuel with
      | 0 => none
      | fuel' + 1 =>
        let person := remaining.getLast hrem
        let remaining1 := remaining.dropLast
        match lookupC c person with
        | none => some (.error .missingConstraint)
        | some entry =>
          match mutualPreferred c person remaining1 entry.1 with
          | .error e => some (.error e)
          | .ok options =>
            match mutualAcceptable c person entry.2 remaining1 with
            | .error e => some (.error e)
            | .ok secondary =>
              if options ≠ [] then
                let choice := pickFrom options (oracle k)
                let idx := remaining1.findIdx (fun x => x == choice)
                solveLoopFuel c oracle fuel' (remaining1.eraseIdx idx) (k + 1)
                  (result ++ [(Tier.preferred, person, choice)]) (np + 1) na nu
              else if secondary ≠ [] then
                let choice := pickFrom secondary (oracle k)
                let idx := remaining1.findIdx (fun x => x == choice)
                solveLoopFuel c oracle fuel' (remaining1.eraseIdx idx) (k + 1)
                  (result ++ [(Tier.accepted, person, choice)]) np (na + 1) nu
              else if remaining1 = [] then some (.error .insufficientPopulation)
              else
                let choice := pickFrom remaining1 (oracle k)
                let idx := remaining1.findIdx (fun x => x == choice)
                solveLoopFuel c oracle fuel' (remaining1.eraseIdx idx) (k + 1)
                  (result ++ [(Tier.unpreferred, person, choice)]) np na (nu + 1)

/-- The selector of `main` (main.rs lines 227-250): maximum `preferred`,
filter, maximum `accepted` among those, filter, then a random element of the
doubly-filtered list.  The `.max().unwrap()` on an empty collection is the
`emptyInput` error. -/
def listMax : List Nat → Nat
  | [] => 0
  | x :: xs => max x (listMax xs)

def best_preferred (solutions : List Solution) : Nat :=
  listMax (solutions.map (fun x => x.preferred))

def best_solutions1 (solutions : List Solution) : List Solution :=
  solutions.filter (fun x => x.preferred == best_preferred solutions)

def best_accepted (solutions : List Solution) : Nat :=
  listMax ((best_solutions1 solutions).map (fun x => x.accepted))

def best_solutions2 (solutions : List Solution) : List Solution :=
  (best_solutions1 solutions).filter (fun x => x.accepted == best_accepted solutions)

def select_best (solutions : List Solution) (r : Nat) : Except SelectError Solution :=
  if solutions = [] then .error .emptyInput
  else .ok ((best_solutions2 solutions).getD
    (r % (best_solutions2 solutions).length) ⟨[], 0, 0, 0⟩)

/-- All persons appearing in a pair list, in order. -/
def flattenPairs : List (Person × Person) → List Person
  | [] => []
  | x :: rest => x.1 :: x.2 :: flattenPairs rest

def flattenTagged : List (Tier × Person × Person) → List Person
  | [] => []
  | x :: rest => x.2.1 :: x.2.2 :: flattenTagged rest

/-- The semantic requirement of each counter tier: a preferred-counted pair is
mutually preferred, an accepted-counted pair is mutually not-unpreferred. -/
def tierOK (c : Constraints) : Tier × Person × Person → Prop
  | (Tier.preferred, a, b) =>
      ∃ ea eb, lookupC c a = some ea ∧ lookupC c b = some eb ∧ b ∈ ea.1 ∧ a ∈ eb.1
  | (Tier.accepted, a, b) =>
      ∃ ea eb, lookupC c a = some ea ∧ lookupC c b = some eb ∧ b ∉ ea.2 ∧ a ∉ eb.2
  | (Tier.unpreferred, _, _) => True

/-! ### Helper lemmas about the candidate computations -/

theorem contains_true_iff (l : List Person) (a : Person) : l.contains a = true ↔ a ∈ l := by
  simp

theorem pickFrom_mem (l : List Person) (r : Nat) (h : l ≠ []) : pickFrom l r ∈ l := by
  have hlt : r % l.length < l.length := Nat.mod_lt _ (List.length_pos.mpr h)
  rw [pickFrom, List.getD_eq_getElem _ _ hlt]
  exact List.getElem_mem hlt

theorem findIdx_beq_lt (l : List Person) (a : Person) (h : a ∈ l) :
    l.findIdx (fun x => x == a) < l.length :=
  List.findIdx_lt_length_of_exists ⟨a, h, by simp⟩

theorem perm_cons_erase_findIdx (l : List Person) (a : Person) (h : a ∈ l) :
    List.Perm l (a :: l.eraseIdx (l.findIdx (fun x => x == a))) := by
  induction l with
  | nil => cases h
  | cons b t ih =>
    by_cases hba : b = a
    · subst hba
      simp [List.findIdx_cons, List.eraseIdx]
    · have hat : a ∈ t := by
        cases h with
        | head => exact absurd rfl hba
        | tail _ h => exact h
      have hbeq : (b == a) = false := by simp [hba]
      rw [List.findIdx_cons, hbeq]
      simp only [cond_false, List.eraseIdx_cons_succ]
      exact (List.Perm.cons b (ih hat)).trans (List.Perm.swap a b _)

theorem mutualPreferred_ok_mem {c : Constraints} {person : Person} {rem : List Person} :
    ∀ {pl l : List Person}, mutualPreferred c person rem pl = .ok l → ∀ {x : Person}, x ∈ l →
      x ∈ rem ∧ x ∈ pl ∧ ∃ e, lookupC c x = some e ∧ person ∈ e.1 := by
  intro pl
  induction pl with
  | nil =>
    intro l h x hx
    rw [mutualPreferred] at h
    cases h
    cases hx
  | cons y ys ih =>
    intro l h x hx
    rw [mutualPreferred] at h
    split at h
    · rename_i hcy
      cases hlook : lookupC c y with
      | none => rw [hlook] at h; cases h
      | some e =>
        rw [hlook] at h
        cases hrec : mutualPreferred c person rem ys with
        | error e' => rw [hrec] at h; cases h
        | ok rest =>
          rw [hrec] at h
          cases h
          split at hx
          · rename_i hment
            cases hx with
            | head =>
              exact ⟨(contains_true_iff _ _).mp hcy, List.mem_cons_self _ _,
                e, hlook, (contains_true_iff _ _).mp hment⟩
            | tail _ hx' =>
              obtain ⟨h1, h2, h3⟩ := ih hrec hx'
              exact ⟨h1, List.mem_cons_of_mem _ h2, h3⟩
          · obtain ⟨h1, h2, h3⟩ := ih hrec hx
            exact ⟨h1, List.mem_cons_of_mem _ h2, h3⟩
    · rename_i hcy
      obtain ⟨h1, h2, h3⟩ := ih h hx
      exact ⟨h1, List.mem_cons_of_mem _ h2, h3⟩

theorem mutualPreferred_ok_of_lookup {c : Constraints} {person : Person} {rem : List Person}
    (hl : ∀ p ∈ rem, (lookupC c p).isSome) :
    ∀ pl : List Person, ∃ l, mutualPreferred c person rem pl = .ok l := by
  intro pl
  induction pl with
  | nil => exact ⟨[], by rw [mutualPreferred]⟩
  | cons y ys ih =>
    obtain ⟨rest, hrec⟩ := ih
    by_cases hcy : rem.contains y
    · have hy : y ∈ rem := (contains_true_iff _ _).mp hcy
      obtain ⟨e, hlook⟩ := Option.isSome_iff_exists.mp (hl y hy)
      exact ⟨if e.1.contains person then y :: rest else rest,
        by rw [mutualPreferred, if_pos hcy, hlook, hrec]⟩
    · exact ⟨rest, by rw [mutualPreferred, if_neg hcy]; exact hrec⟩

theorem mutualAcceptable_ok_mem {c : Constraints} {person : Person} {unpref : List Person} :
    ∀ {inp l : List Person}, mutualAcceptable c person unpref inp = .ok l → ∀ {x : Person},
      (x ∈ l ↔ x ∈ inp ∧ x ∉ unpref ∧ ∃ e, lookupC c x = some e ∧ person ∉ e.2) := by
  intro inp
  induction inp with
  | nil =>
    intro l h x
    rw [mutualAcceptable] at h
    cases h
    simp
  | cons y ys ih =>
    intro l h x
    rw [mutualAcceptable] at h
    split at h
    · rename_i hcy
      have hyu : y ∈ unpref := (contains_true_iff _ _).mp hcy
      rw [ih h]
      constructor
      · rintro ⟨h1, h2, h3⟩
        exact ⟨List.mem_cons_of_mem _ h1, h2, h3⟩
      · rintro ⟨h1, h2, h3⟩
        cases h1 with
        | head => exact absurd hyu h2
        | tail _ h1' => exact ⟨h1', h2, h3⟩
    · rename_i hcy
      have hyu : y ∉ unpref := fun hm => hcy ((contains_true_iff _ _).mpr hm)
      cases hlook : lookupC c y with
      | none => rw [hlook] at h; cases h
      | some e =>
        rw [hlook] at h
        cases hrec : mutualAcceptable c person unpref ys with
        | error e' => rw [hrec] at h; cases h
        | ok rest =>
          rw [hrec] at h
          cases h
          split
          · rename_i hment
            have hpm : person ∈ e.2 := (contains_true_iff _ _).mp hment
            rw [ih hrec]
            constructor
            · rintro ⟨h1, h2, h3⟩
              exact ⟨List.mem_cons_of_mem _ h1, h2, h3⟩
            · rintro ⟨h1, h2, h3⟩
              cases h1 with
              | head =>
                obtain ⟨e', hlook', hpe'⟩ := h3
                rw [hlook] at hlook'
                cases hlook'
                exact absurd hpm hpe'
              | tail _ h1' => exact ⟨h1', h2, h3⟩
          · rename_i hment
            have hpm : person ∉ e.2 := fun hm => hment ((contains_true_iff _ _).mpr hm)
            constructor
            · intro hx
              cases hx with
              | head => exact ⟨List.mem_cons_self _ _, hyu, e, hlook, hpm⟩
              | tail _ hx' =>
                obtain ⟨h1, h2, h3⟩ := (ih hrec).mp hx'
                exact ⟨List.mem_cons_of_mem _ h1, h2, h3⟩
            · rintro ⟨h1, h2, h3⟩
              cases h1 with
              | head => exact List.mem_cons_self _ _
              | tail _ h1' =>
                exact List.mem_cons_of_mem _ ((ih hrec).mpr ⟨h1', h2, h3⟩)

theorem mutualAcceptable_ok_of_lookup {c : Constraints} {person : Person}
    {unpref : List Person} :
    ∀ {inp : List Person}, (∀ p ∈ inp, (lookupC c p).isSome) →
      ∃ l, mutualAcceptable c person unpref inp = .ok l := by
  intro inp
  induction inp with
  | nil => exact fun _ => ⟨[], by rw [mutualAcceptable]⟩
  | cons y ys ih =>
    intro hl
    obtain ⟨rest, hrec⟩ := ih (fun p hp => hl p (List.mem_cons_of_mem _ hp))
    by_cases hcy : unpref.contains y
    · exact ⟨rest, by rw [mutualAcceptable, if_pos hcy]; exact hrec⟩
    · obtain ⟨e, hlook⟩ := Option.isSome_iff_exists.mp (hl y (List.mem_cons_self _ _))
      exact ⟨if e.2.contains person then rest else y :: rest,
        by rw [mutualAcceptable, if_neg hcy, hlook, hrec]⟩

/-! ### The fuel-indexed loop computes the loop -/

theorem solveLoopFuel_eq (c : Constraints) (o : Nat → Nat) :
    ∀ fuel (remaining : List Person), remaining.length ≤ fuel →
      ∀ k result np na nu,
        solveLoopFuel c o fuel remaining k result np na nu
          = some (solveLoop c o remaining k result np na nu) := by
  intro fuel
  induction fuel with
  | zero =>
    intro remaining hlen k result np na nu
    have hrem : remaining = [] := List.eq_nil_of_length_eq_zero (Nat.le_zero.mp hlen)
    subst hrem
    rw [solveLoopFuel, solveLoop]
    simp
  | succ n ih =>
    intro remaining hlen k result np na nu
    by_cases hrem : remaining = []
    · subst hrem
      rw [solveLoopFuel, solveLoop]
      simp
    · rw [solveLoopFuel, solveLoop]
      rw [dif_neg hrem, dif_neg hrem]
      have hpos : 0 < remaining.length := List.length_pos.mpr hrem
      have hlen1 : ∀ idx, ((remaining.dropLast).eraseIdx idx).length ≤ n := by
        intro idx
        have h1 : ((remaining.dropLast).eraseIdx idx).length ≤ remaining.dropLast.length :=
          eraseIdx_length_le _ _
        have h2 : remaining.dropLast.length = remaining.length - 1 :=
          List.length_dropLast remaining
        omega
      cases hlook : lookupC c (remaining.getLast hrem) with
      | none => simp [hlook]
      | some entry =>
        simp only [hlook]
        cases hmp : mutualPreferred c (remaining.getLast hrem) remaining.dropLast entry.1 with
        | error e => simp [hmp]
        | ok options =>
          simp only [hmp]
          cases hma : mutualAcceptable c (remaining.getLast hrem) entry.2 remaining.dropLast with
          | error e => simp [hma]
          | ok secondary =>
            simp only [hma]
            by_cases hopt : options ≠ []
            · simp only [if_pos hopt]
              exact ih _ (hlen1 _) _ _ _ _ _
            · simp only [if_neg hopt]
              by_cases hsec : secondary ≠ []
              · simp only [if_pos hsec]
                exact ih _ (hlen1 _) _ _ _ _ _
              · simp only [if_neg hsec]
                by_cases hrem1 : remaining.dropLast = []
                · simp [hrem1]
                · simp only [if_neg hrem1]
                  exact ih _ (hlen1 _) _ _ _ _ _

theorem solve_tagged_eval {c : Constraints} {o : Nat → Nat} {pop : List Person}
    {r : Except SolveError TSolution}
    (h : solveLoopFuel c o pop.length pop 0 [] 0 0 0 = some r) :
    solve_tagged pop c o = r := by
  have := solveLoopFuel_eq c o pop.length pop (Nat.le_refl _) 0 [] 0 0 0
  rw [this] at h
  exact Option.some.inj h.symm |>.symm

theorem flattenTagged_length : ∀ l : List (Tier × Person × Person),
    (flattenTagged l).length = 2 * l.length := by
  intro l
  induction l with
  | nil => rfl
  | cons x rest ih =>
    rw [flattenTagged]
    simp only [List.length_cons, ih]
    omega

theorem flattenPairs_map : ∀ l : List (Tier × Person × Person),
    flattenPairs (l.map (fun x => x.2)) = flattenTagged l := by
  intro l
  induction l with
  | nil => rfl
  | cons x rest ih => simp [flattenPairs, flattenTagged, ih]

theorem countP_tier_sum : ∀ l : List (Tier × Person × Person),
    l.countP (fun x => x.1 == Tier.preferred) + l.countP (fun x => x.1 == Tier.accepted)
      + l.countP (fun x => x.1 == Tier.unpreferred) = l.length := by
  intro l
  induction l with
  | nil => rfl
  | cons x rest ih =>
    cases hx : x.1 <;>
      simp [List.countP_cons, hx, List.length_cons] <;> omega

/-! ### The main loop invariant: what an `ok` run guarantees -/

theorem solveLoopFuel_ok_spec (c : Constraints) (o : Nat → Nat) :
    ∀ fuel (remaining : List Person) k result np na nu s,
      solveLoopFuel c o fuel remaining k result np na nu = some (.ok s) →
      ∃ tail,
        s.result = result ++ tail ∧
        List.Perm (flattenTagged tail) remaining ∧
        s.preferred = np + tail.countP (fun x => x.1 == Tier.preferred) ∧
        s.accepted = na + tail.countP (fun x => x.1 == Tier.accepted) ∧
        s.unpreferred = nu + tail.countP (fun x => x.1 == Tier.unpreferred) ∧
        ∀ x ∈ tail, tierOK c x := by
  intro fuel
  induction fuel with
  | zero =>
    intro remaining k result np na nu s h
    rw [solveLoopFuel] at h
    by_cases hrem : remaining = []
    · rw [dif_pos hrem] at h
      cases Except.ok.inj (Option.some.inj h)
      subst hrem
      exact ⟨[], by simp, List.Perm.refl _, by simp, by simp,
        by simp, by simp⟩
    · rw [dif_neg hrem] at h
      cases h
  | succ n ih =>
    intro remaining k result np na nu s h
    rw [solveLoopFuel] at h
    by_cases hrem : remaining = []
    · rw [dif_pos hrem] at h
      cases Except.ok.inj (Option.some.inj h)
      subst hrem
      exact ⟨[], by simp, List.Perm.refl _, by simp, by simp,
        by simp, by simp⟩
    · rw [dif_neg hrem] at h
      simp only at h
      have hsplit : List.Perm remaining
          (remaining.dropLast ++ [remaining.getLast hrem]) := by
        rw [List.dropLast_append_getLast hrem]
      cases hlook : lookupC c (remaining.getLast hrem) with
      | none => simp [hlook] at h
      | some entry =>
        simp only [hlook] at h
        cases hmp : mutualPreferred c (remaining.getLast hrem) remaining.dropLast entry.1 with
        | error e => simp [hmp] at h
        | ok options =>
          simp only [hmp] at h
          cases hma : mutualAcceptable c (remaining.getLast hrem) entry.2
              remaining.dropLast with
          | error e => simp [hma] at h
          | ok secondary =>
            simp only [hma] at h
            by_cases hopt : options ≠ []
            · simp only [if_pos hopt] at h
              obtain ⟨tail', ht1, ht2, ht3, ht4, ht5, ht6⟩ := ih _ _ _ _ _ _ _ h
              have hchoice : pickFrom options (o k) ∈ options := pickFrom_mem _ _ hopt
              obtain ⟨hmem1, hmempl, e, hlooke, hpe⟩ := mutualPreferred_ok_mem hmp hchoice
              refine ⟨(Tier.preferred, remaining.getLast hrem, pickFrom options (o k))
                :: tail', ?_, ?_, ?_, ?_, ?_, ?_⟩
              · rw [ht1, List.append_assoc, List.singleton_append]
              · rw [flattenTagged]
                refine List.Perm.symm (hsplit.trans ?_)
                refine ((List.perm_append_singleton _ _).trans ?_)
                refine List.Perm.cons _ ?_
                exact ((perm_cons_erase_findIdx _ _ hmem1).trans
                  (List.Perm.cons _ ht2.symm))
              · rw [ht3, List.countP_cons_of_pos _ _ (by simp)]
                omega
              · rw [ht4, List.countP_cons_of_neg _ _ (by simp)]
              · rw [ht5, List.countP_cons_of_neg _ _ (by simp)]
              · intro x hx
                cases hx with
                | head => exact ⟨entry, e, hlook, hlooke, hmempl, hpe⟩
                | tail _ hx' => exact ht6 x hx'
            · simp only [if_neg hopt] at h
              by_cases hsec : secondary ≠ []
              · simp only [if_pos hsec] at h
                obtain ⟨tail', ht1, ht2, ht3, ht4, ht5, ht6⟩ := ih _ _ _ _ _ _ _ h
                have hchoice : pickFrom secondary (o k) ∈ secondary := pickFrom_mem _ _ hsec
                obtain ⟨hmem1, hnu1, e, hlooke, hpe⟩ := (mutualAcceptable_ok_mem hma).mp hchoice
                refine ⟨(Tier.accepted, remaining.getLast hrem, pickFrom secondary (o k))
                  :: tail', ?_, ?_, ?_, ?_, ?_, ?_⟩
                · rw [ht1, List.append_assoc, List.singleton_append]
                · rw [flattenTagged]
                  refine List.Perm.symm (hsplit.trans ?_)
                  refine ((List.perm_append_singleton _ _).trans ?_)
                  refine List.Perm.cons _ ?_
                  exact ((perm_cons_erase_findIdx _ _ hmem1).trans
                    (List.Perm.cons _ ht2.symm))
                · rw [ht3, List.countP_cons_of_neg _ _ (by simp)]
                · rw [ht4, List.countP_cons_of_pos _ _ (by simp)]
                  omega
                · rw [ht5, List.countP_cons_of_neg _ _ (by simp)]
                · intro x hx
                  cases hx with
                  | head => exact ⟨entry, e, hlook, hlooke, hnu1, hpe⟩
                  | tail _ hx' => exact ht6 x hx'
              · simp only [if_neg hsec] at h
                by_cases hrem1 : remaining.dropLast = []
                · simp [if_pos hrem1, hrem1] at h
                · simp only [if_neg hrem1] at h
                  obtain ⟨tail', ht1, ht2, ht3, ht4, ht5, ht6⟩ := ih _ _ _ _ _ _ _ h
                  have hchoice : pickFrom remaining.dropLast (o k) ∈ remaining.dropLast :=
                    pickFrom_mem _ _ hrem1
                  refine ⟨(Tier.unpreferred, remaining.getLast hrem,
                    pickFrom remaining.dropLast (o k)) :: tail', ?_, ?_, ?_, ?_, ?_, ?_⟩
                  · rw [ht1, List.append_assoc, List.singleton_append]
                  · rw [flattenTagged]
                    refine List.Perm.symm (hsplit.trans ?_)
                    refine ((List.perm_append_singleton _ _).trans ?_)
                    refine List.Perm.cons _ ?_
                    exact ((perm_cons_erase_findIdx _ _ hchoice).trans
                      (List.Perm.cons _ ht2.symm))
                  · rw [ht3, List.countP_cons_of_neg _ _ (by simp)]
                  · rw [ht4, List.countP_cons_of_neg _ _ (by simp)]
                  · rw [ht5, List.countP_cons_of_pos _ _ (by simp)]
                    omega
                  · intro x hx
                    cases hx with
                    | head => trivial
                    | tail _ hx' => exact ht6 x hx'

theorem getLast_not_mem_dropLast {remaining : List Person} (hrem : remaining ≠ [])
    (hnd : remaining.Nodup) : remaining.getLast hrem ∉ remaining.dropLast := by
  have hsplit := List.dropLast_append_getLast hrem
  rw [← hsplit] at hnd
  obtain ⟨-, -, hdisj⟩ := List.nodup_append.mp hnd
  intro hmem
  exact hdisj hmem (List.mem_singleton_self _)

theorem solveLoopFuel_ok_no_self (c : Constraints) (o : Nat → Nat) :
    ∀ fuel (remaining : List Person), remaining.Nodup →
      ∀ k result np na nu s,
        solveLoopFuel c o fuel remaining k result np na nu = some (.ok s) →
        (∀ x ∈ result, x.2.1 ≠ x.2.2) → ∀ x ∈ s.result, x.2.1 ≠ x.2.2 := by
  intro fuel
  induction fuel with
  | zero =>
    intro remaining hnd k result np na nu s h hres
    rw [solveLoopFuel] at h
    by_cases hrem : remaining = []
    · rw [dif_pos hrem] at h
      cases Except.ok.inj (Option.some.inj h)
      exact hres
    · rw [dif_neg hrem] at h
      cases h
  | succ n ih =>
    intro remaining hnd k result np na nu s h hres
    rw [solveLoopFuel] at h
    by_cases hrem : remaining = []
    · rw [dif_pos hrem] at h
      cases Except.ok.inj (Option.some.inj h)
      exact hres
    · rw [dif_neg hrem] at h
      simp only at h
      have hnd1 : remaining.dropLast.Nodup := by
        have hsplit := List.dropLast_append_getLast hrem
        rw [← hsplit] at hnd
        exact (List.nodup_append.mp hnd).1
      have hpnin := getLast_not_mem_dropLast hrem hnd
      have hnderase : ∀ idx, ((remaining.dropLast).eraseIdx idx).Nodup :=
        fun idx => (List.eraseIdx_sublist _ idx).nodup hnd1
      cases hlook : lookupC c (remaining.getLast hrem) with
      | none => simp [hlook] at h
      | some entry =>
        simp only [hlook] at h
        cases hmp : mutualPreferred c (remaining.getLast hrem) remaining.dropLast entry.1 with
        | error e => simp [hmp] at h
        | ok options =>
          simp only [hmp] at h
          cases hma : mutualAcceptable c (remaining.getLast hrem) entry.2
              remaining.dropLast with
          | error e => simp [hma] at h
          | ok secondary =>
            simp only [hma] at h
            have hext : ∀ (t : Tier) (choice : Person), choice ∈ remaining.dropLast →
                ∀ x ∈ result ++ [(t, remaining.getLast hrem, choice)], x.2.1 ≠ x.2.2 := by
              intro t choice hchoice x hx
              rcases List.mem_append.mp hx with hx' | hx'
              · exact hres x hx'
              · rcases List.mem_singleton.mp hx' with rfl
                intro heq
                simp only at heq
                exact hpnin (heq ▸ hchoice)
            by_cases hopt : options ≠ []
            · simp only [if_pos hopt] at h
              have hchoice : pickFrom options (o k) ∈ remaining.dropLast :=
                (mutualPreferred_ok_mem hmp (pickFrom_mem _ _ hopt)).1
              exact ih _ (hnderase _) _ _ _ _ _ _ h (hext _ _ hchoice)
            · simp only [if_neg hopt] at h
              by_cases hsec : secondary ≠ []
              · simp only [if_pos hsec] at h
                have hchoice : pickFrom secondary (o k) ∈ remaining.dropLast :=
                  ((mutualAcceptable_ok_mem hma).mp (pickFrom_mem _ _ hsec)).1
                exact ih _ (hnderase _) _ _ _ _ _ _ h (hext _ _ hchoice)
              · simp only [if_neg hsec] at h
                by_cases hrem1 : remaining.dropLast = []
                · simp [if_pos hrem1, hrem1] at h
                · simp only [if_neg hrem1] at h
                  have hchoice : pickFrom remaining.dropLast (o k) ∈ remaining.dropLast :=
                    pickFrom_mem _ _ hrem1
                  exact ih _ (hnderase _) _ _ _ _ _ _ h (hext _ _ hchoice)

theorem solveLoopFuel_progress (c : Constraints) (o : Nat → Nat) :
    ∀ fuel (remaining : List Person), remaining.length ≤ fuel →
      (∀ p ∈ remaining, (lookupC c p).isSome) →
      ∀ k result np na nu,
        ∃ r', solveLoopFuel c o fuel remaining k result np na nu = some r' ∧
          r' ≠ .error .missingConstraint ∧
          (remaining.length % 2 = 0 → ∃ s, r' = .ok s) := by
  intro fuel
  induction fuel with
  | zero =>
    intro remaining hlen hlookups k result np na nu
    have hrem : remaining = [] := List.eq_nil_of_length_eq_zero (Nat.le_zero.mp hlen)
    subst hrem
    refine ⟨.ok ⟨result, np, na, nu⟩, ?_, by simp, fun _ => ⟨_, rfl⟩⟩
    rw [solveLoopFuel]
    simp
  | succ n ih =>
    intro remaining hlen hlookups k result np na nu
    by_cases hrem : remaining = []
    · subst hrem
      refine ⟨.ok ⟨result, np, na, nu⟩, ?_, by simp, fun _ => ⟨_, rfl⟩⟩
      rw [solveLoopFuel]
      simp
    · have hmem1sub : ∀ p ∈ remaining.dropLast, p ∈ remaining :=
        fun p hp => (List.dropLast_sublist remaining).subset hp
      have hlook1 : ∀ p ∈ remaining.dropLast, (lookupC c p).isSome :=
        fun p hp => hlookups p (hmem1sub p hp)
      obtain ⟨entry, hlook⟩ := Option.isSome_iff_exists.mp
        (hlookups _ (List.getLast_mem hrem))
      obtain ⟨options, hmp⟩ :=
        @mutualPreferred_ok_of_lookup c (remaining.getLast hrem) remaining.dropLast
          hlook1 entry.1
      obtain ⟨secondary, hma⟩ :=
        @mutualAcceptable_ok_of_lookup c (remaining.getLast hrem) entry.2
          remaining.dropLast hlook1
      have hstep : ∀ (choice : Person), choice ∈ remaining.dropLast →
          ∀ (t : Tier) k' np' na' nu',
          ∃ r', solveLoopFuel c o n
              ((remaining.dropLast).eraseIdx
                ((remaining.dropLast).findIdx (fun x => x == choice))) k'
              (result ++ [(t, remaining.getLast hrem, choice)]) np' na' nu' = some r' ∧
            r' ≠ .error .missingConstraint ∧
            (remaining.length % 2 = 0 → ∃ s, r' = .ok s) := by
        intro choice hchoice t k' np' na' nu'
        have hidx : (remaining.dropLast).findIdx (fun x => x == choice)
            < remaining.dropLast.length := findIdx_beq_lt _ _ hchoice
        have hlen2 : ((remaining.dropLast).eraseIdx
            ((remaining.dropLast).findIdx (fun x => x == choice))).length
            = remaining.length - 2 := by
          rw [List.length_eraseIdx]
          simp only [hidx, if_pos]
          rw [List.length_dropLast]
          omega
        have hge2 : 2 ≤ remaining.length := by
          have h1 : 0 < remaining.dropLast.length := List.length_pos.mpr
            (List.ne_nil_of_mem hchoice)
          have h2 : remaining.dropLast.length = remaining.length - 1 :=
            List.length_dropLast remaining
          omega
        have herase_sub : ∀ p ∈ (remaining.dropLast).eraseIdx
            ((remaining.dropLast).findIdx (fun x => x == choice)), p ∈ remaining :=
          fun p hp => hmem1sub p ((List.eraseIdx_sublist _ _).subset hp)
        obtain ⟨r', heq, hne, hev⟩ := ih _ (by omega)
          (fun p hp => hlookups p (herase_sub p hp)) k'
          (result ++ [(t, remaining.getLast hrem, choice)]) np' na' nu'
        exact ⟨r', heq, hne, fun heven => hev (by omega)⟩
      by_cases hopt : options ≠ []
      · obtain ⟨r', heq, hne, hev⟩ := hstep (pickFrom options (o k))
          (mutualPreferred_ok_mem hmp (pickFrom_mem _ _ hopt)).1 Tier.preferred
          (k + 1) (np + 1) na nu
        refine ⟨r', ?_, hne, hev⟩
        rw [solveLoopFuel, dif_neg hrem]
        simp only [hlook, hmp, hma, if_pos hopt]
        exact heq
      · by_cases hsec : secondary ≠ []
        · obtain ⟨r', heq, hne, hev⟩ := hstep (pickFrom secondary (o k))
            ((mutualAcceptable_ok_mem hma).mp (pickFrom_mem _ _ hsec)).1 Tier.accepted
            (k + 1) np (na + 1) nu
          refine ⟨r', ?_, hne, hev⟩
          rw [solveLoopFuel, dif_neg hrem]
          simp only [hlook, hmp, hma, if_pos hsec, if_neg hopt]
          exact heq
        · by_cases hrem1 : remaining.dropLast = []
          · refine ⟨.error .insufficientPopulation, ?_, by simp, ?_⟩
            · rw [solveLoopFuel, dif_neg hrem]
              simp only [hlook, hmp, hma, if_neg hopt, if_neg hsec, if_pos hrem1]
            · intro heven
              have h1 : remaining.dropLast.length = remaining.length - 1 :=
                List.length_dropLast remaining
              have h2 : remaining.dropLast.length = 0 := by rw [hrem1]; rfl
              have h3 : 0 < remaining.length := List.length_pos.mpr hrem
              omega
          · obtain ⟨r', heq, hne, hev⟩ := hstep (pickFrom remaining.dropLast (o k))
              (pickFrom_mem _ _ hrem1) Tier.unpreferred (k + 1) np na (nu + 1)
            refine ⟨r', ?_, hne, hev⟩
            rw [solveLoopFuel, dif_neg hrem]
            simp only [hlook, hmp, hma, if_neg hopt, if_neg hsec, if_neg hrem1]
            exact heq

theorem pickFrom_singleton (x : Person) (r : Nat) : pickFrom [x] r = x := by
  simp [pickFrom, Nat.mod_one]

theorem solveLoopFuel_couples (c : Constraints) (o : Nat → Nat) (f : Person → Person) :
    ∀ fuel (remaining : List Person), remaining.length ≤ fuel → remaining.Nodup →
      (∀ p ∈ remaining, f p ∈ remaining ∧ f p ≠ p ∧ f (f p) = p) →
      (∀ p ∈ remaining, ∃ ep, lookupC c p = some ep ∧ ep.1 = [f p]) →
      ∀ k result np na nu,
        ∃ tail, solveLoopFuel c o fuel remaining k result np na nu
            = some (.ok ⟨result ++ tail, np + tail.length, na, nu⟩) ∧
          List.Perm (flattenTagged tail) remaining ∧
          ∀ x ∈ tail, x.1 = Tier.preferred ∧ x.2.2 = f x.2.1 := by
  intro fuel
  induction fuel with
  | zero =>
    intro remaining hlen hnd hcpl hcons k result np na nu
    have hrem : remaining = [] := List.eq_nil_of_length_eq_zero (Nat.le_zero.mp hlen)
    subst hrem
    refine ⟨[], ?_, by simp [flattenTagged], by simp⟩
    rw [solveLoopFuel]
    simp
  | succ n ih =>
    intro remaining hlen hnd hcpl hcons k result np na nu
    by_cases hrem : remaining = []
    · subst hrem
      refine ⟨[], ?_, by simp [flattenTagged], by simp⟩
      rw [solveLoopFuel]
      simp
    · have hplast : remaining.getLast hrem ∈ remaining := List.getLast_mem hrem
      obtain ⟨ep, hlook, hep⟩ := hcons _ hplast
      obtain ⟨hfmem, hfne, hff⟩ := hcpl _ hplast
      have hpnin := getLast_not_mem_dropLast hrem hnd
      have hnd1 : remaining.dropLast.Nodup := by
        have hsplit := List.dropLast_append_getLast hrem
        rw [← hsplit] at hnd
        exact (List.nodup_append.mp hnd).1
      have hmem_iff : ∀ x, x ∈ remaining ↔
          x ∈ remaining.dropLast ∨ x = remaining.getLast hrem := by
        intro x
        conv => lhs; rw [← List.dropLast_append_getLast hrem]
        simp [List.mem_append]
      have hf_in1 : f (remaining.getLast hrem) ∈ remaining.dropLast := by
        rcases (hmem_iff _).mp hfmem with h | h
        · exact h
        · exact absurd h hfne
      obtain ⟨e2, hlook2, he2⟩ := hcons _ hfmem
      have he2' : e2.1 = [remaining.getLast hrem] := by rw [he2, hff]
      have hcont : remaining.dropLast.contains (f (remaining.getLast hrem)) = true :=
        (contains_true_iff _ _).mpr hf_in1
      have hmp : mutualPreferred c (remaining.getLast hrem) remaining.dropLast ep.1
          = .ok [f (remaining.getLast hrem)] := by
        rw [hep, mutualPreferred, if_pos hcont]
        simp only [hlook2, mutualPreferred, he2']
        simp
      have hlook1 : ∀ p ∈ remaining.dropLast, (lookupC c p).isSome := by
        intro p hp
        obtain ⟨e, h1, -⟩ := hcons p ((List.dropLast_sublist remaining).subset hp)
        rw [h1]
        rfl
      obtain ⟨secondary, hma⟩ :=
        @mutualAcceptable_ok_of_lookup c (remaining.getLast hrem) ep.2
          remaining.dropLast hlook1
      have hidx : (remaining.dropLast).findIdx
            (fun x => x == f (remaining.getLast hrem))
          < remaining.dropLast.length := findIdx_beq_lt _ _ hf_in1
      have hperm1 : List.Perm remaining.dropLast
          (f (remaining.getLast hrem) ::
            (remaining.dropLast).eraseIdx
              ((remaining.dropLast).findIdx (fun x => x == f (remaining.getLast hrem)))) :=
        perm_cons_erase_findIdx _ _ hf_in1
      set R' := (remaining.dropLast).eraseIdx
        ((remaining.dropLast).findIdx (fun x => x == f (remaining.getLast hrem))) with hR'
      have hndR : R'.Nodup := (List.eraseIdx_sublist _ _).nodup hnd1
      have hfnin : f (remaining.getLast hrem) ∉ R' := by
        have := hperm1.nodup_iff.mp hnd1
        exact (List.nodup_cons.mp this).1
      have hRsub : ∀ p ∈ R', p ∈ remaining.dropLast :=
        fun p hp => (List.eraseIdx_sublist _ _).subset hp
      have hRmem : ∀ p, p ∈ remaining.dropLast ↔
          p ∈ R' ∨ p = f (remaining.getLast hrem) := by
        intro p
        rw [hperm1.mem_iff]
        simp [List.mem_cons]
        tauto
      have hlenR : R'.length = remaining.length - 2 := by
        rw [hR', List.length_eraseIdx]
        simp only [hidx, if_pos]
        rw [List.length_dropLast]
        omega
      have hpos : 0 < remaining.length := List.length_pos.mpr hrem
      have hcplR : ∀ p ∈ R', f p ∈ R' ∧ f p ≠ p ∧ f (f p) = p := by
        intro p hp
        have hp1 : p ∈ remaining.dropLast := hRsub p hp
        have hpr : p ∈ remaining := (List.dropLast_sublist remaining).subset hp1
        obtain ⟨hf1, hf2, hf3⟩ := hcpl p hpr
        have hpne_last : p ≠ remaining.getLast hrem := fun h => hpnin (h ▸ hp1)
        have hpne_f : p ≠ f (remaining.getLast hrem) := fun h => hfnin (h ▸ hp)
        have hfp_ne_last : f p ≠ remaining.getLast hrem := by
          intro h
          exact hpne_f (by rw [← hf3, h])
        have hfp_ne_f : f p ≠ f (remaining.getLast hrem) := by
          intro h
          apply hpne_last
          rw [← hf3, h, hff]
        refine ⟨?_, hf2, hf3⟩
        rcases (hmem_iff _).mp hf1 with h | h
        · rcases (hRmem _).mp h with h' | h'
          · exact h'
          · exact absurd h' hfp_ne_f
        · exact absurd h hfp_ne_last
      have hconsR : ∀ p ∈ R', ∃ e, lookupC c p = some e ∧ e.1 = [f p] :=
        fun p hp => hcons p
          ((List.dropLast_sublist remaining).subset (hRsub p hp))
      obtain ⟨tail', heq', hperm', hprops'⟩ := ih R' (by omega) hndR hcplR hconsR
        (k + 1)
        (result ++ [(Tier.preferred, remaining.getLast hrem, f (remaining.getLast hrem))])
        (np + 1) na nu
      refine ⟨(Tier.preferred, remaining.getLast hrem, f (remaining.getLast hrem))
        :: tail', ?_, ?_, ?_⟩
      · rw [solveLoopFuel, dif_neg hrem]
        simp only [hlook, hmp, hma, pickFrom_singleton]
        rw [if_pos (by simp : ([f (remaining.getLast hrem)] : List Person) ≠ [])]
        rw [← hR', heq']
        congr 3
        · simp
        · simp only [List.length_cons]
          omega
      · rw [flattenTagged]
        refine List.Perm.symm ?_
        have hsplit : List.Perm remaining
            (remaining.dropLast ++ [remaining.getLast hrem]) := by
          rw [List.dropLast_append_getLast hrem]
        refine hsplit.trans ?_
        refine ((List.perm_append_singleton _ _).trans ?_)
        refine List.Perm.cons _ ?_
        exact (hperm1.trans (List.Perm.cons _ hperm'.symm))
      · intro x hx
        cases hx with
        | head => exact ⟨rfl, rfl⟩
        | tail _ hx' => exact hprops' x hx'

/-! ### Selector lemmas -/

theorem listMax_mem : ∀ l : List Nat, l ≠ [] → listMax l ∈ l := by
  intro l
  induction l with
  | nil => intro h; exact absurd rfl h
  | cons x xs ih =>
    intro _
    rw [listMax]
    by_cases hxs : xs = []
    · subst hxs
      simp [listMax]
    · rcases Nat.le_total x (listMax xs) with h | h
      · rw [Nat.max_eq_right h]
        exact List.mem_cons_of_mem _ (ih hxs)
      · rw [Nat.max_eq_left h]
        exact List.mem_cons_self _ _

theorem le_listMax : ∀ {l : List Nat} {x : Nat}, x ∈ l → x ≤ listMax l := by
  intro l
  induction l with
  | nil => intro x h; cases h
  | cons y ys ih =>
    intro x h
    rw [listMax]
    cases h with
    | head => exact Nat.le_max_left _ _
    | tail _ h' => exact Nat.le_trans (ih h') (Nat.le_max_right _ _)

theorem filter_map_comm {α β : Type} (g : α → β) (p : β → Bool) (q : α → Bool)
    (hpq : ∀ x, p (g x) = q x) :
    ∀ l : List α, (l.map g).filter p = (l.filter q).map g := by
  intro l
  induction l with
  | nil => rfl
  | cons x xs ih =>
    by_cases hq : q x = true
    · rw [List.map_cons, List.filter_cons, List.filter_cons]
      simp [hpq, hq, ih]
    · rw [List.map_cons, List.filter_cons, List.filter_cons]
      simp [hpq, hq, ih]

theorem getD_mem {α : Type} {l : List α} {n : Nat} {d : α} (h : n < l.length) :
    l.getD n d ∈ l := by
  rw [List.getD_eq_getElem _ _ h]
  exact List.getElem_mem h

theorem getD_map {α β : Type} (g : α → β) {l : List α} {n : Nat} (d : β) (d' : α)
    (h : n < l.length) : (l.map g).getD n d = g (l.getD n d') := by
  rw [List.getD_eq_getElem _ _ (by simpa using h), List.getD_eq_getElem _ _ h]
  simp


theorem best_solutions1_ne (sols : List Solution) (hne : sols ≠ []) :
    best_solutions1 sols ≠ [] := by
  have hmapne : sols.map (fun x => x.preferred) ≠ [] := by simpa using hne
  obtain ⟨s1, hs1mem, hs1eq⟩ := List.mem_map.mp (listMax_mem _ hmapne)
  have hmem : s1 ∈ best_solutions1 sols := by
    rw [best_solutions1, List.mem_filter]
    exact ⟨hs1mem, by simp [best_preferred, hs1eq]⟩
  exact List.ne_nil_of_mem hmem

theorem best_solutions2_ne (sols : List Solution) (hne : sols ≠ []) :
    best_solutions2 sols ≠ [] := by
  have h1 : (best_solutions1 sols).map (fun x => x.accepted) ≠ [] := by
    simpa using best_solutions1_ne sols hne
  obtain ⟨s2, hs2mem, hs2eq⟩ := List.mem_map.mp (listMax_mem _ h1)
  have hmem : s2 ∈ best_solutions2 sols := by
    rw [best_solutions2, List.mem_filter]
    exact ⟨hs2mem, by simp [best_accepted, hs2eq]⟩
  exact List.ne_nil_of_mem hmem

theorem best_preferred_map (sols : List Solution) (f : Solution → Nat) :
    best_preferred (sols.map (fun x => ⟨x.result, x.preferred, x.accepted, f x⟩))
      = best_preferred sols := by
  rw [best_preferred, best_preferred, List.map_map]
  rfl

theorem best_solutions1_map (sols : List Solution) (f : Solution → Nat) :
    best_solutions1 (sols.map (fun x => ⟨x.result, x.preferred, x.accepted, f x⟩))
      = (best_solutions1 sols).map (fun x => ⟨x.result, x.preferred, x.accepted, f x⟩) := by
  rw [best_solutions1, best_solutions1, best_preferred_map]
  exact filter_map_comm _ _ _ (fun x => rfl) sols

theorem best_accepted_map (sols : List Solution) (f : Solution → Nat) :
    best_accepted (sols.map (fun x => ⟨x.result, x.preferred, x.accepted, f x⟩))
      = best_accepted sols := by
  rw [best_accepted, best_accepted, best_solutions1_map, List.map_map]
  rfl

theorem best_solutions2_map (sols : List Solution) (f : Solution → Nat) :
    best_solutions2 (sols.map (fun x => ⟨x.result, x.preferred, x.accepted, f x⟩))
      = (best_solutions2 sols).map (fun x => ⟨x.result, x.preferred, x.accepted, f x⟩) := by
  rw [best_solutions2, best_solutions2, best_accepted_map, best_solutions1_map]
  exact filter_map_comm _ _ _ (fun x => rfl) _

/-- C3: for a non-empty collection of Solutions, the selector (main.rs lines
227-250) returns a member of the collection whose `preferred` count is the
maximum over the whole collection and whose `accepted` count is the maximum
over the subset achieving that maximum `preferred`; the `unpreferred` count is
never consulted — rewriting every solution's `unpreferred` field arbitrarily
changes the output only by the same rewrite. -/
theorem select_best_spec (sols : List Solution) (r : Nat) (hne : sols ≠ []) :
    ∃ s, select_best sols r = .ok s ∧ s ∈ sols ∧
      s.preferred = listMax (sols.map (fun x => x.preferred)) ∧
      s.accepted = listMax ((sols.filter (fun x =>
          x.preferred == listMax (sols.map (fun y => y.preferred)))).map
        (fun x => x.accepted)) ∧
      ∀ f : Solution → Nat,
        select_best (sols.map (fun x => ⟨x.result, x.preferred, x.accepted, f x⟩)) r
          = .ok ⟨s.result, s.preferred, s.accepted, f s⟩ := by
  have hbs2ne := best_solutions2_ne sols hne
  have hlen : r % (best_solutions2 sols).length < (best_solutions2 sols).length :=
    Nat.mod_lt _ (List.length_pos.mpr hbs2ne)
  obtain ⟨s, hs⟩ : ∃ s, (best_solutions2 sols).getD
      (r % (best_solutions2 sols).length) ⟨[], 0, 0, 0⟩ = s := ⟨_, rfl⟩
  have hsmem2 : s ∈ best_solutions2 sols := hs ▸ getD_mem hlen
  have hsmem1 : s ∈ best_solutions1 sols := (List.mem_filter.mp hsmem2).1
  have hsmem : s ∈ sols := (List.mem_filter.mp hsmem1).1
  have hsacc : s.accepted = best_accepted sols := by
    have h := (List.mem_filter.mp hsmem2).2
    simpa using h
  have hspref : s.preferred = best_preferred sols := by
    have h := (List.mem_filter.mp hsmem1).2
    simpa using h
  refine ⟨s, ?_, hsmem, ?_, ?_, ?_⟩
  · rw [select_best, if_neg hne, hs]
  · rw [hspref]
    rfl
  · rw [hsacc]
    rfl
  · intro f
    have hgne : sols.map (fun x => (⟨x.result, x.preferred, x.accepted, f x⟩ : Solution))
        ≠ [] := by simpa using hne
    rw [select_best, if_neg hgne, best_solutions2_map, List.length_map]
    rw [getD_map (fun x => (⟨x.result, x.preferred, x.accepted, f x⟩ : Solution))
      ⟨[], 0, 0, 0⟩ ⟨[], 0, 0, 0⟩ hlen, hs]

/-! ### Claim theorems -/

/-- C1: for every valid even-length population (unique names, every name with
a constraint entry), in every shuffle order and for every sequence of random
draws, `solve_constraints` returns a Solution whose pairing contains every
Person of the population exactly once (as first or second component, never
twice) and whose three counters sum to `pop.length / 2`. -/
theorem solve_covers_population (pop : List Person) (c : Constraints) (oracle : Nat → Nat)
    (hnd : pop.Nodup) (heven : pop.length % 2 = 0)
    (hc : ∀ p ∈ pop, (lookupC c p).isSome) :
    ∃ s : Solution, solve_constraints pop c oracle = .ok s ∧
      List.Perm (flattenPairs s.result) pop ∧
      (∀ p ∈ pop, (flattenPairs s.result).count p = 1) ∧
      s.preferred + s.accepted + s.unpreferred = pop.length / 2 := by
  obtain ⟨r', heq, hnm, hev⟩ := solveLoopFuel_progress c oracle pop.length pop
    (Nat.le_refl _) hc 0 [] 0 0 0
  obtain ⟨t, rfl⟩ := hev heven
  have htag : solve_tagged pop c oracle = .ok t := solve_tagged_eval heq
  obtain ⟨tail, ht1, ht2, ht3, ht4, ht5, ht6⟩ :=
    solveLoopFuel_ok_spec c oracle pop.length pop 0 [] 0 0 0 t heq
  rw [List.nil_append] at ht1
  have hflat : flattenPairs (stripTags t).result = flattenTagged tail := by
    show flattenPairs (t.result.map (fun x => x.2)) = flattenTagged tail
    rw [flattenPairs_map, ht1]
  have hlen2 : 2 * tail.length = pop.length := by
    rw [← flattenTagged_length tail, ht2.length_eq]
  refine ⟨stripTags t, ?_, ?_, ?_, ?_⟩
  · rw [solve_constraints, htag]
    rfl
  · rw [hflat]
    exact ht2
  · intro p hp
    rw [hflat, ht2.count_eq]
    exact List.count_eq_one_of_mem hnd hp
  · show t.preferred + t.accepted + t.unpreferred = pop.length / 2
    rw [ht3, ht4, ht5]
    have hsum := countP_tier_sum tail
    omega

/-- C2: in every instrumented run of the matcher, each pair counted toward the
`preferred` counter is mutually preferred (each side lists the other in its
preferred list — a one-sided preference never qualifies), each pair counted
toward `accepted` is between two people neither of whom lists the other as
unpreferred, and the two counters equal the number of pairs their branches
produced; stripping the instrumentation yields exactly the `solve_constraints`
result. -/
theorem solve_tier_mutuality (pop : List Person) (c : Constraints) (oracle : Nat → Nat)
    (t : TSolution) (h : solve_tagged pop c oracle = .ok t) :
    solve_constraints pop c oracle = .ok (stripTags t) ∧
    (∀ x ∈ t.result, tierOK c x) ∧
    t.preferred = t.result.countP (fun x => x.1 == Tier.preferred) ∧
    t.accepted = t.result.countP (fun x => x.1 == Tier.accepted) := by
  have heq : solveLoopFuel c oracle pop.length pop 0 [] 0 0 0 = some (.ok t) := by
    rw [solveLoopFuel_eq c oracle pop.length pop (Nat.le_refl _) 0 [] 0 0 0]
    rw [show solveLoop c oracle pop 0 [] 0 0 0 = .ok t from h]
  obtain ⟨tail, ht1, ht2, ht3, ht4, ht5, ht6⟩ :=
    solveLoopFuel_ok_spec c oracle pop.length pop 0 [] 0 0 0 t heq
  rw [List.nil_append] at ht1
  refine ⟨by rw [solve_constraints, h]; rfl, ?_, ?_, ?_⟩
  · rw [ht1]
    exact ht6
  · rw [ht3, ht1]
    omega
  · rw [ht4, ht1]
    omega

def missingEntryC : Constraints := [("a", ([], ["p"]))]

/-- C4 counterexample: the claim "solve fails with MissingConstraintError
whenever any Person in the population lacks an entry" is false on the code:
person "p" has no constraint entry, yet with working-list order ["p", "a"]
(so "a" is popped first) the run ends in the forced tier without ever looking
"p" up and returns a Solution. -/
theorem solve_missing_constraint_counterexample :
    lookupC missingEntryC "p" = none ∧ "p" ∈ (["p", "a"] : List Person) ∧
    solve_constraints ["p", "a"] missingEntryC (fun _ => 0)
      = .ok ⟨[("a", "p")], 0, 0, 1⟩ := by
  refine ⟨rfl, by simp, ?_⟩
  rw [solve_constraints, solve_tagged_eval (show solveLoopFuel missingEntryC (fun _ => 0) 2
    ["p", "a"] 0 [] 0 0 0 = some (.ok ⟨[(Tier.unpreferred, "a", "p")], 0, 0, 1⟩) from rfl)]
  rfl

/-- C4 (amended): the MissingConstraintError panic fires exactly when a missing
entry is actually looked up: if the first processed person (the last element
of the shuffled working list) has no entry, `solve_constraints` fails with
`missingConstraint`; and when every member of the working list has an entry
no missingConstraint failure is possible — names in preference lists that lie
outside the population are never looked up, hence never cause this error. -/
theorem solve_missing_constraint (l : List Person) (p : Person) (c : Constraints)
    (oracle : Nat → Nat) (hp : lookupC c p = none) :
    solve_constraints (l ++ [p]) c oracle = .error .missingConstraint ∧
    ∀ pop : List Person, (∀ q ∈ pop, (lookupC c q).isSome) →
      solve_constraints pop c oracle ≠ .error .missingConstraint := by
  constructor
  · have hne : l ++ [p] ≠ [] := by simp
    have hlast : (l ++ [p]).getLast hne = p := by
      simp [List.getLast_append]
    rw [solve_constraints, solve_tagged, solveLoop, dif_neg hne]
    simp only [hlast, hp]
    rfl
  · intro pop hc hcontra
    obtain ⟨r', heq, hnm, -⟩ := solveLoopFuel_progress c oracle pop.length pop
      (Nat.le_refl _) hc 0 [] 0 0 0
    have htag : solve_tagged pop c oracle = r' := solve_tagged_eval heq
    rw [solve_constraints, htag] at hcontra
    cases r' with
    | ok t => simp [Except.map] at hcontra
    | error e =>
      cases e with
      | missingConstraint => exact hnm rfl
      | insufficientPopulation => simp [Except.map] at hcontra

/-- C5: on an odd-sized population whose members all have constraint entries,
in every shuffle order and for every sequence of random draws, the forced
tier eventually finds the working set empty and `solve_constraints` fails with
`insufficientPopulation`, yielding no Solution (in particular for a population
of size 1 — it never pairs a Person with itself). -/
theorem solve_odd_insufficient (pop : List Person) (c : Constraints) (oracle : Nat → Nat)
    (hodd : pop.length % 2 = 1) (hc : ∀ p ∈ pop, (lookupC c p).isSome) :
    solve_constraints pop c oracle = .error .insufficientPopulation := by
  obtain ⟨r', heq, hnm, -⟩ := solveLoopFuel_progress c oracle pop.length pop
    (Nat.le_refl _) hc 0 [] 0 0 0
  have htag : solve_tagged pop c oracle = r' := solve_tagged_eval heq
  cases r' with
  | ok t =>
    obtain ⟨tail, -, ht2, -, -, -, -⟩ :=
      solveLoopFuel_ok_spec c oracle pop.length pop 0 [] 0 0 0 t heq
    have hlen2 : 2 * tail.length = pop.length := by
      rw [← flattenTagged_length tail, ht2.length_eq]
    omega
  | error e =>
    cases e with
    | missingConstraint => exact absurd rfl hnm
    | insufficientPopulation =>
      rw [solve_constraints, htag]
      rfl

/-- C6: the selector given zero Solutions fails with `emptyInput` (the
`.max().unwrap()` of main.rs line 227 panics on an empty collection) and
returns no Solution. -/
theorem select_best_empty (r : Nat) : select_best [] r = .error .emptyInput := rfl

/-- C9: the matching loop terminates on every input, in at most
`remaining.length` iterations: with fuel at least the working-set size the
fuel-indexed loop never exhausts its fuel and computes exactly `solveLoop`
(each iteration strictly shrinks the working set; each iteration's candidate
scans are linear in the working set, giving the O(P²) bound). -/
theorem solve_terminates (c : Constraints) (oracle : Nat → Nat) (fuel : Nat)
    (remaining : List Person) (k : Nat) (result : List (Tier × Person × Person))
    (np na nu : Nat) (h : remaining.length ≤ fuel) :
    solveLoopFuel c oracle fuel remaining k result np na nu
      = some (solveLoop c oracle remaining k result np na nu) :=
  solveLoopFuel_eq c oracle fuel remaining h k result np na nu

/-- C10: for a duplicate-free population, every pair of a returned Solution
has two distinct people, in every tier: the current person is popped from the
working set before its partner is chosen from what remains. -/
theorem solve_no_self_pair (pop : List Person) (c : Constraints) (oracle : Nat → Nat)
    (s : Solution) (hnd : pop.Nodup) (h : solve_constraints pop c oracle = .ok s) :
    ∀ pr ∈ s.result, pr.1 ≠ pr.2 := by
  rw [solve_constraints] at h
  cases htag : solve_tagged pop c oracle with
  | error e =>
    rw [htag] at h
    cases h
  | ok t =>
    rw [htag] at h
    have hst : stripTags t = s := by
      have h' : Except.ok (stripTags t) = Except.ok s := h
      exact Except.ok.inj h'
    have heq : solveLoopFuel c oracle pop.length pop 0 [] 0 0 0 = some (.ok t) := by
      rw [solveLoopFuel_eq c oracle pop.length pop (Nat.le_refl _) 0 [] 0 0 0]
      rw [show solveLoop c oracle pop 0 [] 0 0 0 = .ok t from htag]
    have hres := solveLoopFuel_ok_no_self c oracle pop.length pop hnd 0 [] 0 0 0 t heq
      (by simp)
    intro pr hpr
    rw [← hst] at hpr
    have hpr' : pr ∈ t.result.map (fun x => x.2) := hpr
    obtain ⟨x, hx, rfl⟩ := List.mem_map.mp hpr'
    exact hres x hx

def coupleConstraints : Constraints :=
  [("A", (["B"], [])), ("B", (["A"], [])), ("C", (["D"], [])), ("D", (["C"], []))]

def coupleOf : Person → Person
  | "A" => "B"
  | "B" => "A"
  | "C" => "D"
  | "D" => "C"
  | _ => ""

/-- C7: for the population ["A","B","C","D"] where A/B and C/D mutually prefer
each other and no unpreferred entries exist, every shuffle order and every
sequence of random draws yields `preferred = 2`, `accepted = 0`,
`unpreferred = 0`, and the two rooms are exactly {A,B} and {C,D}. -/
theorem solve_two_couples (shuffled : List Person) (oracle : Nat → Nat)
    (hperm : List.Perm shuffled ["A", "B", "C", "D"]) :
    ∃ s : Solution, solve_constraints shuffled coupleConstraints oracle = .ok s ∧
      s.preferred = 2 ∧ s.accepted = 0 ∧ s.unpreferred = 0 ∧
      s.result.length = 2 ∧
      (("A", "B") ∈ s.result ∨ ("B", "A") ∈ s.result) ∧
      (("C", "D") ∈ s.result ∨ ("D", "C") ∈ s.result) := by
  have habcd : (["A", "B", "C", "D"] : List Person).Nodup := by decide
  have hnd : shuffled.Nodup := hperm.nodup_iff.mpr habcd
  have hmem4 : ∀ p ∈ shuffled, p ∈ (["A", "B", "C", "D"] : List Person) :=
    fun p hp => hperm.mem_iff.mp hp
  have hkey4 : ∀ q ∈ (["A", "B", "C", "D"] : List Person),
      coupleOf q ∈ (["A", "B", "C", "D"] : List Person) ∧ coupleOf q ≠ q ∧
        coupleOf (coupleOf q) = q := by decide
  have hcpl : ∀ p ∈ shuffled, coupleOf p ∈ shuffled ∧ coupleOf p ≠ p ∧
      coupleOf (coupleOf p) = p := by
    intro p hp
    obtain ⟨h1, h2, h3⟩ := hkey4 p (hmem4 p hp)
    exact ⟨hperm.mem_iff.mpr h1, h2, h3⟩
  have hcons : ∀ p ∈ shuffled, ∃ ep, lookupC coupleConstraints p = some ep ∧
      ep.1 = [coupleOf p] := by
    intro p hp
    have hp4 := hmem4 p hp
    fin_cases hp4
    · exact ⟨(["B"], []), rfl, rfl⟩
    · exact ⟨(["A"], []), rfl, rfl⟩
    · exact ⟨(["D"], []), rfl, rfl⟩
    · exact ⟨(["C"], []), rfl, rfl⟩
  obtain ⟨tail, heq, hpermt, hprops⟩ := solveLoopFuel_couples coupleConstraints oracle
    coupleOf shuffled.length shuffled (Nat.le_refl _) hnd hcpl hcons 0 [] 0 0 0
  have htag : solve_tagged shuffled coupleConstraints oracle
      = .ok ⟨[] ++ tail, 0 + tail.length, 0, 0⟩ := solve_tagged_eval heq
  have hlen4 : shuffled.length = 4 := by
    rw [hperm.length_eq]
    rfl
  have htl2 : tail.length = 2 := by
    have h1 := hpermt.length_eq
    rw [flattenTagged_length] at h1
    omega
  rcases tail with _ | ⟨x1, _ | ⟨x2, _ | ⟨x3, tl⟩⟩⟩
  · simp at htl2
  · simp at htl2
  rotate_left
  · simp at htl2
  obtain ⟨tt1, p1, q1⟩ := x1
  obtain ⟨tt2, p2, q2⟩ := x2
  obtain ⟨ht1, hq1⟩ := hprops _ (List.mem_cons_self _ _)
  obtain ⟨ht2, hq2⟩ := hprops _ (List.mem_cons_of_mem _ (List.mem_cons_self _ _))
  simp only at ht1 hq1 ht2 hq2
  subst ht1
  subst hq1
  subst ht2
  subst hq2
  have hflat4 : List.Perm [p1, coupleOf p1, p2, coupleOf p2]
      ["A", "B", "C", "D"] := by
    have : flattenTagged [(Tier.preferred, p1, coupleOf p1),
        (Tier.preferred, p2, coupleOf p2)] = [p1, coupleOf p1, p2, coupleOf p2] := rfl
    rw [this] at hpermt
    exact hpermt.trans hperm
  have hfnd : ([p1, coupleOf p1, p2, coupleOf p2] : List Person).Nodup :=
    hflat4.nodup_iff.mpr habcd
  have hp1m : p1 ∈ (["A", "B", "C", "D"] : List Person) :=
    hflat4.mem_iff.mp (List.mem_cons_self _ _)
  have hp2m : p2 ∈ (["A", "B", "C", "D"] : List Person) :=
    hflat4.mem_iff.mp (by simp)
  have hne1 : p2 ≠ p1 := by
    intro hcontra
    rw [List.nodup_cons] at hfnd
    exact hfnd.1 (by simp [hcontra])
  have hne2 : p2 ≠ coupleOf p1 := by
    intro hcontra
    have h1 := hfnd
    rw [List.nodup_cons] at h1
    have h2 := h1.2
    rw [List.nodup_cons] at h2
    exact h2.1 (by simp [hcontra])
  have hfinal : ∀ a ∈ (["A", "B", "C", "D"] : List Person),
      ∀ b ∈ (["A", "B", "C", "D"] : List Person), b ≠ a → b ≠ coupleOf a →
      ((("A", "B") ∈ [(a, coupleOf a), (b, coupleOf b)] ∨
        ("B", "A") ∈ [(a, coupleOf a), (b, coupleOf b)]) ∧
       (("C", "D") ∈ [(a, coupleOf a), (b, coupleOf b)] ∨
        ("D", "C") ∈ [(a, coupleOf a), (b, coupleOf b)])) := by decide
  obtain ⟨hab, hcd⟩ := hfinal p1 hp1m p2 hp2m hne1 hne2
  exact ⟨⟨[(p1, coupleOf p1), (p2, coupleOf p2)], 2, 0, 0⟩,
    by rw [solve_constraints, htag]; rfl, rfl, rfl, rfl, rfl, hab, hcd⟩

/-- C8: the accepted-tier candidate list contains a remaining person `x`
exactly when `x` is not in the current person's unpreferred list and the
current person is not in `x`'s unpreferred list; the condition never consults
preferred lists, so a one-sided (non-mutual) preferred candidate falls through
to this tier on the same footing as a pure-neutral candidate. -/
theorem accepted_tier_iff (c : Constraints) (person : Person)
    (unpref rem sec : List Person)
    (h : mutualAcceptable c person unpref rem = .ok sec) (x : Person) :
    x ∈ sec ↔ x ∈ rem ∧ x ∉ unpref ∧ ∃ e, lookupC c x = some e ∧ person ∉ e.2 :=
  mutualAcceptable_ok_mem h

/-! ### Concrete witnesses -/

def pairC : Constraints := [("A", (["B"], [])), ("B", (["A"], []))]

theorem solve_covers_population_witness :
    ∃ s : Solution, solve_constraints ["A", "B"] pairC (fun _ => 0) = .ok s ∧
      List.Perm (flattenPairs s.result) ["A", "B"] ∧
      (∀ p ∈ (["A", "B"] : List Person), (flattenPairs s.result).count p = 1) ∧
      s.preferred + s.accepted + s.unpreferred
        = (["A", "B"] : List Person).length / 2 :=
  solve_covers_population ["A", "B"] pairC (fun _ => 0) (by decide) (by decide) (by decide)

theorem solve_tier_mutuality_witness :
    solve_constraints ["A", "B"] pairC (fun _ => 0)
      = .ok (stripTags ⟨[(Tier.preferred, "B", "A")], 1, 0, 0⟩) :=
  (solve_tier_mutuality ["A", "B"] pairC (fun _ => 0)
    ⟨[(Tier.preferred, "B", "A")], 1, 0, 0⟩ (solve_tagged_eval rfl)).1

def solA : Solution := ⟨[], 0, 0, 0⟩

def solB : Solution := ⟨[], 1, 2, 3⟩

theorem select_best_spec_witness :
    ∃ s, select_best [solA, solB] 0 = .ok s ∧ s ∈ [solA, solB] ∧
      s.preferred = listMax ([solA, solB].map (fun x => x.preferred)) ∧
      s.accepted = listMax (([solA, solB].filter (fun x =>
          x.preferred == listMax ([solA, solB].map (fun y => y.preferred)))).map
        (fun x => x.accepted)) ∧
      ∀ f : Solution → Nat,
        select_best ([solA, solB].map
            (fun x => ⟨x.result, x.preferred, x.accepted, f x⟩)) 0
          = .ok ⟨s.result, s.preferred, s.accepted, f s⟩ :=
  select_best_spec [solA, solB] 0 (by simp)

theorem solve_missing_constraint_witness :
    solve_constraints (["x"] ++ ["p"]) missingEntryC (fun _ => 0)
      = .error .missingConstraint :=
  (solve_missing_constraint ["x"] "p" missingEntryC (fun _ => 0) rfl).1

def singleC : Constraints := [("A", ([], []))]

theorem solve_odd_insufficient_witness :
    solve_constraints ["A"] singleC (fun _ => 0) = .error .insufficientPopulation :=
  solve_odd_insufficient ["A"] singleC (fun _ => 0) (by decide) (by decide)

theorem solve_two_couples_witness :
    ∃ s : Solution,
      solve_constraints ["D", "C", "B", "A"] coupleConstraints (fun _ => 0) = .ok s ∧
      s.preferred = 2 ∧ s.accepted = 0 ∧ s.unpreferred = 0 ∧
      s.result.length = 2 ∧
      (("A", "B") ∈ s.result ∨ ("B", "A") ∈ s.result) ∧
      (("C", "D") ∈ s.result ∨ ("D", "C") ∈ s.result) :=
  solve_two_couples ["D", "C", "B", "A"] (fun _ => 0) (by decide)

def acceptC : Constraints := [("a", ([], ["b"])), ("b", ([], [])), ("c", (["a"], []))]

theorem accepted_tier_iff_witness :
    "c" ∈ (["c"] : List Person) ↔
      "c" ∈ (["b", "c"] : List Person) ∧ "c" ∉ (["b"] : List Person) ∧
      ∃ e, lookupC acceptC "c" = some e ∧ "a" ∉ e.2 :=
  accepted_tier_iff acceptC "a" ["b"] ["b", "c"] ["c"] rfl "c"

theorem solve_terminates_witness :
    solveLoopFuel pairC (fun _ => 0) 2 ["A", "B"] 0 [] 0 0 0
      = some (solveLoop pairC (fun _ => 0) ["A", "B"] 0 [] 0 0 0) :=
  solve_terminates pairC (fun _ => 0) 2 ["A", "B"] 0 [] 0 0 0 (by decide)

theorem solve_no_self_pair_witness :
    (("B", "A") : Person × Person).1 ≠ (("B", "A") : Person × Person).2 :=
  solve_no_self_pair ["A", "B"] pairC (fun _ => 0) ⟨[("B", "A")], 1, 0, 0⟩ (by decide)
    (by
      rw [solve_constraints, solve_tagged_eval (show solveLoopFuel pairC (fun _ => 0) 2
        ["A", "B"] 0 [] 0 0 0 = some (.ok ⟨[(Tier.preferred, "B", "A")], 1, 0, 0⟩) from rfl)]
      rfl)
    ("B", "A") (by simp)
